import Mathlib

/-!
# Verification of `cpg-reducer`

A shallow embedding of `src/cpg-reducer.cc`, a tool that reduces a code
property graph (CPG): it removes intra-file edges (`graph_remove_intra_edges`),
optionally merges the surviving nodes into one compartment per file
(`graph_merge_intra_nodes`), and serializes the result as a d3-arc JSON
document (`graph_print_d3_arc`).

The cgraph storage engine is treated as a capability abstraction, as the
design document prescribes: an attributed directed multigraph with node and
edge lists in sequence (insertion) order, deletion, and string-keyed
attribute get/set.  Node handles are modelled by an arbitrary type `α` with
decidable equality (`Nat` for parsed input graphs, `String` for the merged
graph whose nodes are keyed by file name).  `agget` of an attribute that was
never set yields `none`, modelling cgraph's NULL result.

Deleting a node or edge while iterating is modelled as follows.  The C code
snapshots the next handle before any deletion and re-fetches it when the
snapshot is the node just deleted (lines 94-95, 101-102, 136-137), so the
sequence of outer-loop visits is exactly the original node order restricted
to the nodes still live when the cursor reaches them; `reduceNodes` therefore
recurses over the initial node list and skips nodes that have been deleted
in the meantime.  Accessing a node handle after its node has been deleted is
a use-after-free in the C program; the embedding makes such an access an
explicit `RunError.deadNodeAccess` error.
-/

/-- An edge of the attributed multigraph (cgraph `Agedge_t`): an identity
`eid` distinguishing parallel edges, tail and head node handles, and the
optional `value` string attribute read by `agget(e, "value")`. -/
structure Edge (α : Type) where
  eid : Nat
  tail : α
  head : α
  value : Option String
deriving DecidableEq, Repr

/-- An attributed directed multigraph (cgraph `Agraph_t`): nodes and edges in
sequence order, and the string attributes `file` and `label` used by the
program; an attribute that was never set reads back as `none`. -/
structure Graph (α : Type) where
  nodes : List α
  edges : List (Edge α)
  file : α → Option String
  label : α → Option String

/-- The outgoing edges of node `n`, in sequence order: the edges enumerated
by `agfstout`/`agnxtout` (lines 101-102). -/
def outEdges {α : Type} [DecidableEq α] (g : Graph α) (n : α) : List (Edge α) :=
  g.edges.filter (fun e => e.tail = n)

/-- `agdegree(g, v, TRUE, TRUE)`: the number of incident edge endpoints of
`v`, counting in- and out-edges (a self-loop counts twice).  The program only
compares this with zero. -/
def degree {α : Type} [DecidableEq α] (g : Graph α) (v : α) : Nat :=
  (g.edges.filter (fun e => e.tail = v)).length +
    (g.edges.filter (fun e => e.head = v)).length

/-- `agdelete(g, e)` on an edge: removes the edge object `e` (line 121). -/
def delEdge {α : Type} [DecidableEq α] (g : Graph α) (e : Edge α) : Graph α :=
  { g with edges := g.edges.erase e }

/-- `agdelnode(g, v)`: removes the node and every edge incident to it
(lines 138 and 150; the program only deletes nodes of degree zero, so the
edge filter removes nothing there). -/
def delNode {α : Type} [DecidableEq α] (g : Graph α) (v : α) : Graph α :=
  { g with nodes := g.nodes.erase v,
           edges := g.edges.filter (fun e => ¬(e.tail = v ∨ e.head = v)) }

/-- How a run of a pipeline stage can fail: `missingFile` models the
`assert(file != NULL)` aborts at lines 99, 106 and 171; `deadNodeAccess`
models a dereference of a node handle whose node was already deleted
(a use-after-free in the C program); `nullAttr` models `strlen(NULL)` on an
attribute the emitter reads unconditionally (lines 207-210, 228, 234). -/
inductive RunError where
  | missingFile : RunError
  | deadNodeAccess : RunError
  | nullAttr : RunError
deriving DecidableEq, Repr

/-- The inner loop of `graph_remove_intra_edges` (lines 101-139): walk the
outgoing edges of the current node (whose `file` value is `fn`), delete each
edge whose head has the same non-empty `file` value, and delete the head
when the edge deletion leaves it with degree zero.  The boolean accumulator
is the `isreduced` flag.  The edge cursor is safe to model as the snapshot
list of outgoing edges: deleting `e` does not touch later out-edges, and the
deleted head has degree zero, so no later out-edge of the current node is
ever removed under the cursor. -/
def reduceEdges {α : Type} [DecidableEq α] (fn : String) :
    List (Edge α) → Graph α → Bool → Except RunError (Graph α × Bool)
  | [], g, isreduced => .ok (g, isreduced)
  | e :: rest, g, isreduced =>
    match g.file e.head with
    | none => .error .missingFile
    | some fm =>
      if fn.length = 0 ∨ fm.length = 0 ∨ fn ≠ fm then
        -- leave inter-file and boundary edges (lines 108-116)
        reduceEdges fn rest g isreduced
      else
        -- remove the intra-file edge (line 121), then test the head's degree
        if degree (delEdge g e) e.head > 0 then
          reduceEdges fn rest (delEdge g e) true
        else
          -- remove the adjacent node left without edges (line 138)
          reduceEdges fn rest (delNode (delEdge g e) e.head) true

/-- The outer loop of `graph_remove_intra_edges` (lines 94-152) over the
snapshot of the node sequence: skip nodes deleted since the snapshot (the
`nxtnode` re-fetch, lines 136-137), read the node's `file` attribute
(aborting when absent, lines 98-99), run the edge loop, and delete the node
when it was reduced and its degree dropped to zero (lines 141-151).  The C
code reaches the degree check through the raw handle `n` even when `n` was
already deleted inside the edge loop (as the head of an intra-file
self-loop); the embedding reports that access as `deadNodeAccess`. -/
def reduceNodes {α : Type} [DecidableEq α] : List α → Graph α → Except RunError (Graph α)
  | [], g => .ok g
  | n :: rest, g =>
    if n ∈ g.nodes then
      match g.file n with
      | none => .error .missingFile
      | some fn =>
        match reduceEdges fn (outEdges g n) g false with
        | .error err => .error err
        | .ok (g1, isreduced) =>
          if isreduced then
            if n ∈ g1.nodes then
              if degree g1 n = 0 then
                reduceNodes rest (delNode g1 n)
              else
                reduceNodes rest g1
            else .error .deadNodeAccess
          else reduceNodes rest g1
    else reduceNodes rest g

/-- `graph_remove_intra_edges` (lines 86-153): the Intra-Edge Reducer. -/
def graph_remove_intra_edges {α : Type} [DecidableEq α] (g : Graph α) :
    Except RunError (Graph α) :=
  reduceNodes g.nodes g

/-- The loop of `graph_merge_intra_nodes` (lines 167-188): for each input
node with a non-empty `file` value, look up or create the compartment node
keyed by that file string in the output graph, setting its `label` and
`file` attributes to the file string and printing the stray debug line
`label <file> file <file>` (line 178) on creation.  The `compartments` map
is modelled by membership in the output node list, which holds exactly the
created keys.  The loop over the node's outgoing edges (lines 185-187) has
an empty body in the source and creates nothing, so it is not modelled.
The second component accumulates the lines printed to standard output. -/
def mergeNodes {α : Type} : List α → Graph α → Graph String → List String →
    Except RunError (Graph String × List String)
  | [], _, h, out => .ok (h, out)
  | n :: rest, g, h, out =>
    match g.file n with
    | none => .error .missingFile
    | some fn =>
      if fn.length = 0 then
        -- skip nodes with no associated file (lines 172-173)
        mergeNodes rest g h out
      else if fn ∈ h.nodes then
        mergeNodes rest g h out
      else
        mergeNodes rest g
          { nodes := h.nodes ++ [fn], edges := h.edges,
            file := fun s => if s = fn then some fn else h.file s,
            label := fun s => if s = fn then some fn else h.label s }
          (out ++ ["label " ++ fn ++ " file " ++ fn])

/-- `graph_merge_intra_nodes` (lines 155-191): the Compartment Merger.
Starts from the fresh empty graph created by `agopen` (line 164) and returns
the merged graph together with the lines it printed to standard output. -/
def graph_merge_intra_nodes {α : Type} (g : Graph α) :
    Except RunError (Graph String × List String) :=
  mergeNodes g.nodes g { nodes := [], edges := [], file := fun _ => none, label := fun _ => none } []

/-- The `id`/`source`/`target` derivation of the emitter: `printf("%.*s",
len > 2 ? len - 2 : 0, s + 1)` (lines 212-214 and 238-242) prints
`len - 2` characters starting after the first one, i.e. strips the leading
quote character and one trailing character, and prints nothing when the
string has at most two characters. -/
def stripId (s : String) : String :=
  String.mk ((s.data.drop 1).take (if s.data.length > 2 then s.data.length - 2 else 0))

/-- The file part of the `group` derivation: `printf("%.*s", filelen > 4 ?
filelen - 4 : 0, file + 1)` (lines 215-216) prints `filelen - 4` characters
starting after the first one. -/
def stripGroup (s : String) : String :=
  String.mk ((s.data.drop 1).take (if s.data.length > 4 then s.data.length - 4 else 0))

/-- The full `group` string: the stripped file value followed by the
sentinel `NONE` exactly when the stored file value is empty (line 217). -/
def groupStr (s : String) : String :=
  stripGroup s ++ (if s.data.length = 0 then "NONE" else "")

/-- One object of the emitted `nodes` array. -/
structure D3Node where
  id : String
  group : String
deriving DecidableEq, Repr

/-- One object of the emitted `links` array. -/
structure D3Link where
  source : String
  target : String
  value : String
deriving DecidableEq, Repr

/-- The emitted d3-arc document: a `nodes` array followed by a `links`
array. -/
structure D3Doc where
  nodes : List D3Node
  links : List D3Link
deriving DecidableEq, Repr

/-- The node object printed for `n` (lines 207-217): `id` from the stored
`label`, `group` from the stored `file`.  `agget` yields NULL for an unset
attribute and the emitter calls `strlen` on it unconditionally, so a missing
attribute is a failure (`none`). -/
def d3NodeEntry {α : Type} (g : Graph α) (n : α) : Option D3Node :=
  match g.label n, g.file n with
  | some l, some f => some ⟨stripId l, groupStr f⟩
  | _, _ => none

/-- The link object printed for the outgoing edge `e` of `n`
(lines 228-243): `source` from the tail's stored `label`, `target` from the
head's, `value` from the edge's `value` attribute or the empty string when
absent (line 243). -/
def d3LinkEntry {α : Type} (g : Graph α) (n : α) (e : Edge α) : Option D3Link :=
  match g.label n, g.label e.head with
  | some ln, some lm => some ⟨stripId ln, stripId lm, e.value.getD ""⟩
  | _, _ => none

/-- Map a fallible function over a list, failing when any element fails. -/
def mapOpt {α β : Type} (f : α → Option β) : List α → Option (List β)
  | [] => some []
  | a :: l =>
    match f a, mapOpt f l with
    | some b, some bs => some (b :: bs)
    | _, _ => none

/-- The content of the document emitted by `graph_print_d3_arc`
(lines 193-252) as structured data: one node object per node in sequence
order, then, walking the nodes again, one link object per outgoing edge.
The emitter deletes nothing, so both walks are plain iteration over the
node sequence. -/
def d3Doc {α : Type} [DecidableEq α] (g : Graph α) : Option D3Doc :=
  match mapOpt (d3NodeEntry g) g.nodes,
      mapOpt (fun n => mapOpt (d3LinkEntry g n) (outEdges g n)) g.nodes with
  | some ns, some lss => some ⟨ns, lss.flatten⟩
  | _, _ => none

/-- One printed line of the `nodes` array, with the trailing comma the
emitter adds when the node cursor has a successor (lines 218-220). -/
def d3NodeLine (en : D3Node) (comma : Bool) : String :=
  "    \x7b\"id\": \"" ++ en.id ++ "\", \"group\": \"" ++ en.group ++ "\"\x7d" ++
    (if comma then "," else "")

/-- One printed line of the `links` array, with the trailing comma the
emitter adds when another link or another node follows (lines 244-246). -/
def d3LinkLine (li : D3Link) (comma : Bool) : String :=
  "    \x7b\"source\": \"" ++ li.source ++ "\", \"target\": \"" ++ li.target ++
    "\", \"value\": \"" ++ li.value ++ "\"\x7d" ++ (if comma then "," else "")

/-- The lines of the `nodes` array (lines 204-221): every node but the last
is followed by a comma. -/
def d3NodesLines {α : Type} (g : Graph α) : List α → Option (List String)
  | [] => some []
  | [n] => (d3NodeEntry g n).map (fun en => [d3NodeLine en false])
  | n :: n2 :: rest =>
    match d3NodeEntry g n, d3NodesLines g (n2 :: rest) with
    | some en, some ls => some (d3NodeLine en true :: ls)
    | _, _ => none

/-- The lines printed for the outgoing edges of one node (lines 231-247):
`more` records whether the node cursor has a successor (`nxtnode != NULL`),
which forces a comma even on the node's last link. -/
def d3LinksOfNode {α : Type} (g : Graph α) (n : α) (more : Bool) :
    List (Edge α) → Option (List String)
  | [] => some []
  | [e] => (d3LinkEntry g n e).map (fun li => [d3LinkLine li more])
  | e :: e2 :: rest =>
    match d3LinkEntry g n e, d3LinksOfNode g n more (e2 :: rest) with
    | some li, some ls => some (d3LinkLine li true :: ls)
    | _, _ => none

/-- The lines of the `links` array (lines 225-248): the second walk over the
node sequence.  The tail's `label` is read (and `strlen` applied) before the
edge loop, even for a node without outgoing edges (lines 228-229). -/
def d3LinksLines {α : Type} [DecidableEq α] (g : Graph α) : List α → Option (List String)
  | [] => some []
  | n :: rest =>
    match g.label n with
    | none => none
    | some _ =>
      match d3LinksOfNode g n (rest ≠ []) (outEdges g n), d3LinksLines g rest with
      | some a, some b => some (a ++ b)
      | _, _ => none

/-- `graph_print_d3_arc` (lines 193-252): the exact lines the Arc-Diagram
Emitter writes to standard output. -/
def graph_print_d3_arc {α : Type} [DecidableEq α] (g : Graph α) : Option (List String) :=
  match d3NodesLines g g.nodes, d3LinksLines g g.nodes with
  | some ns, some ls =>
    some (["\x7b", "  \"nodes\": ["] ++ ns ++ ["  ],", "  \"links\": ["] ++ ls ++ ["  ]", "\x7d"])
  | _, _ => none

/-- One iteration of the main loop (lines 298-316) in the default
`compartment` node granularity with the `d3-arc` format: reduce the graph in
place, merge it, and emit; the result is everything the program writes to
standard output for this input graph, in order (the merger's lines followed
by the emitter's). -/
def process_graph_compartment (g : Graph Nat) : Except RunError (List String) := do
  let g1 ← graph_remove_intra_edges g
  let (h, printed) ← graph_merge_intra_nodes g1
  match graph_print_d3_arc h with
  | none => .error .nullAttr
  | some emitted => .ok (printed ++ emitted)

/-- Well-formedness guaranteed by the cgraph storage engine for any graph it
hands to the program: node and edge objects are pairwise distinct and every
edge endpoint is a node of the graph. -/
def WF {α : Type} (g : Graph α) : Prop :=
  g.nodes.Nodup ∧ g.edges.Nodup ∧ ∀ e ∈ g.edges, e.tail ∈ g.nodes ∧ e.head ∈ g.nodes

instance {α : Type} [DecidableEq α] (g : Graph α) : Decidable (WF g) := by
  unfold WF
  infer_instance

/-- An edge is not an intra-file edge: its endpoints never carry the same
non-empty `file` value. -/
def NotIntra {α : Type} (file : α → Option String) (e : Edge α) : Prop :=
  ∀ f, file e.tail = some f → file e.head = some f → f = ""

/-- No edge of the list touches `v`. -/
def noIncident {α : Type} (edges : List (Edge α)) (v : α) : Prop :=
  ∀ e ∈ edges, e.tail ≠ v ∧ e.head ≠ v

lemma string_length_zero {s : String} (h : s.length = 0) : s = "" :=
  String.ext (List.length_eq_zero.mp h)

lemma degree_eq_zero_iff {α : Type} [DecidableEq α] (g : Graph α) (v : α) :
    degree g v = 0 ↔ noIncident g.edges v := by
  unfold degree noIncident
  rw [Nat.add_eq_zero_iff, List.length_eq_zero, List.length_eq_zero,
    List.filter_eq_nil_iff, List.filter_eq_nil_iff]
  constructor
  · rintro ⟨h1, h2⟩ e he
    exact ⟨by simpa using h1 e he, by simpa using h2 e he⟩
  · intro h
    exact ⟨fun e he => by simpa using (h e he).1, fun e he => by simpa using (h e he).2⟩

/-- The facts every mutation of the reducer preserves: the attribute maps are
untouched, nodes and edges only disappear, and well-formedness survives. -/
def GPres {α : Type} (g g' : Graph α) : Prop :=
  g'.file = g.file ∧ g'.label = g.label ∧ g'.edges ⊆ g.edges ∧ g'.nodes ⊆ g.nodes ∧
    (WF g → WF g')

lemma gpres_refl {α : Type} (g : Graph α) : GPres g g :=
  ⟨rfl, rfl, fun _ h => h, fun _ h => h, fun h => h⟩

lemma gpres_trans {α : Type} {g1 g2 g3 : Graph α} (h12 : GPres g1 g2) (h23 : GPres g2 g3) :
    GPres g1 g3 :=
  ⟨h23.1.trans h12.1, h23.2.1.trans h12.2.1, h23.2.2.1.trans h12.2.2.1,
    h23.2.2.2.1.trans h12.2.2.2.1, fun h => h23.2.2.2.2 (h12.2.2.2.2 h)⟩

lemma gpres_delEdge {α : Type} [DecidableEq α] (g : Graph α) (e : Edge α) :
    GPres g (delEdge g e) := by
  refine ⟨rfl, rfl, ?_, fun _ h => h, ?_⟩
  · exact List.erase_subset e g.edges
  · rintro ⟨hn, he, hm⟩
    exact ⟨hn, he.erase e, fun e' he' => hm e' (List.erase_subset e g.edges he')⟩

lemma gpres_delNode {α : Type} [DecidableEq α] (g : Graph α) (v : α) :
    GPres g (delNode g v) := by
  refine ⟨rfl, rfl, ?_, ?_, ?_⟩
  · exact List.filter_subset' g.edges
  · exact List.erase_subset v g.nodes
  · rintro ⟨hn, he, hm⟩
    refine ⟨hn.erase v, he.filter _, fun e' he' => ?_⟩
    have he'' := List.mem_filter.mp he'
    have hend := hm e' he''.1
    have hne : ¬(e'.tail = v ∨ e'.head = v) := by
      have := he''.2
      simpa using this
    push_neg at hne
    exact ⟨(List.mem_erase_of_ne hne.1).mpr hend.1, (List.mem_erase_of_ne hne.2).mpr hend.2⟩

lemma reduceEdges_gpres {α : Type} [DecidableEq α] (fn : String) :
    ∀ (es : List (Edge α)) (g : Graph α) (b : Bool) (g' : Graph α) (b' : Bool),
      reduceEdges fn es g b = .ok (g', b') → GPres g g' := by
  intro es
  induction es with
  | nil =>
    intro g b g' b' h
    simp only [reduceEdges] at h
    obtain ⟨rfl, rfl⟩ := Prod.mk.injEq .. ▸ Except.ok.inj h
    exact gpres_refl g
  | cons e rest ih =>
    intro g b g' b' h
    simp only [reduceEdges] at h
    split at h
    · exact absurd h (by simp)
    · split at h
      · exact ih g b g' b' h
      · split at h
        · exact gpres_trans (gpres_delEdge g e) (ih _ _ _ _ h)
        · exact gpres_trans (gpres_trans (gpres_delEdge g e) (gpres_delNode _ e.head))
            (ih _ _ _ _ h)

lemma reduceNodes_gpres {α : Type} [DecidableEq α] :
    ∀ (tv : List α) (g g' : Graph α), reduceNodes tv g = .ok g' → GPres g g' := by
  intro tv
  induction tv with
  | nil =>
    intro g g' h
    simp only [reduceNodes] at h
    exact Except.ok.inj h ▸ gpres_refl g
  | cons n rest ih =>
    intro g g' h
    simp only [reduceNodes] at h
    split at h
    · split at h
      · exact absurd h (by simp)
      · rename_i fn hfn
        split at h
        · exact absurd h (by simp)
        · rename_i p g1 isred heq
          have hpres1 : GPres g g1 := reduceEdges_gpres fn _ g false g1 isred heq
          split at h
          · split at h
            · split at h
              · exact gpres_trans (gpres_trans hpres1 (gpres_delNode g1 n)) (ih _ _ h)
              · exact gpres_trans hpres1 (ih _ _ h)
            · exact absurd h (by simp)
          · exact gpres_trans hpres1 (ih _ _ h)
    · exact ih g g' h

lemma reduceEdges_survivor {α : Type} [DecidableEq α] (fn : String) :
    ∀ (es : List (Edge α)) (g : Graph α) (b : Bool) (g' : Graph α) (b' : Bool),
      reduceEdges fn es g b = .ok (g', b') → g.edges.Nodup →
      ∀ e ∈ es, e ∈ g'.edges →
        ∀ fm, g.file e.head = some fm → fn.length = 0 ∨ fm.length = 0 ∨ fn ≠ fm := by
  intro es
  induction es with
  | nil =>
    intro g b g' b' h hnd e he
    exact absurd he (List.not_mem_nil e)
  | cons e0 rest ih =>
    intro g b g' b' h hnd e he he' fm hfm
    simp only [reduceEdges] at h
    split at h
    · exact absurd h (by simp)
    · rename_i fm0 hfm0
      split at h
      · rename_i hc
        rcases List.mem_cons.mp he with rfl | hrest
        · have hfm' : fm = fm0 := Option.some.inj (hfm.symm.trans hfm0)
          rw [hfm']
          exact hc
        · exact ih g b g' b' h hnd e hrest he' fm hfm
      · split at h
        · rcases List.mem_cons.mp he with rfl | hrest
          · exfalso
            have hsub := (reduceEdges_gpres fn rest (delEdge g e) true g' b' h).2.2.1
            exact hnd.not_mem_erase (hsub he')
          · exact ih _ _ _ _ h (hnd.erase e0) e hrest he' fm hfm
        · rcases List.mem_cons.mp he with rfl | hrest
          · exfalso
            have hsub := (reduceEdges_gpres fn rest _ true g' b' h).2.2.1
            have h3 : e ∈ (delEdge g e).edges := List.filter_subset' _ (hsub he')
            exact hnd.not_mem_erase h3
          · exact ih _ _ _ _ h ((hnd.erase e0).filter _) e hrest he' fm hfm

lemma reduceNodes_no_intra {α : Type} [DecidableEq α] :
    ∀ (tv : List α) (g g' : Graph α), reduceNodes tv g = .ok g' → WF g →
      (∀ e ∈ g.edges, e.tail ∉ tv → NotIntra g.file e) →
      ∀ e ∈ g'.edges, NotIntra g.file e := by
  intro tv
  induction tv with
  | nil =>
    intro g g' h hwf hdone e he
    simp only [reduceNodes] at h
    obtain rfl := Except.ok.inj h
    exact hdone e he (List.not_mem_nil _)
  | cons n rest ih =>
    intro g g' h hwf hdone
    simp only [reduceNodes] at h
    split at h
    · rename_i hmem
      split at h
      · exact absurd h (by simp)
      · rename_i fn hfn
        split at h
        · exact absurd h (by simp)
        · rename_i p g1 isred heq
          have hpres1 : GPres g g1 := reduceEdges_gpres fn _ g false g1 isred heq
          have main : ∀ (g2 : Graph α), GPres g1 g2 → reduceNodes rest g2 = .ok g' →
              ∀ e ∈ g'.edges, NotIntra g.file e := by
            intro g2 hp12 hrec
            have hp02 : GPres g g2 := gpres_trans hpres1 hp12
            have hfe : g2.file = g.file := hp02.1
            have hwf2 : WF g2 := hp02.2.2.2.2 hwf
            have hdone2 : ∀ e ∈ g2.edges, e.tail ∉ rest → NotIntra g2.file e := by
              intro e he htl
              rw [hfe]
              intro f hf hf'
              by_cases htn : e.tail = n
              · have he1 : e ∈ g1.edges := hp12.2.2.1 he
                have heg : e ∈ g.edges := hpres1.2.2.1 he1
                have hout : e ∈ outEdges g n := by
                  unfold outEdges
                  rw [List.mem_filter]
                  exact ⟨heg, by simp [htn]⟩
                have hsurv := reduceEdges_survivor fn (outEdges g n) g false g1 isred heq
                  hwf.2.1 e hout he1 f hf'
                have hffn : f = fn := by
                  rw [htn] at hf
                  exact Option.some.inj (hf.symm.trans hfn)
                rcases hsurv with h0 | h0 | h0
                · rw [hffn]
                  exact string_length_zero h0
                · exact string_length_zero h0
                · exact absurd hffn.symm h0
              · have heg : e ∈ g.edges := hp02.2.2.1 he
                have hnotin : e.tail ∉ n :: rest := by
                  intro hcon
                  rcases List.mem_cons.mp hcon with hh | hh
                  · exact htn hh
                  · exact htl hh
                exact hdone e heg hnotin f hf hf'
            have hconc := ih g2 g' hrec hwf2 hdone2
            intro e he
            rw [← hfe]
            exact hconc e he
          split at h
          · split at h
            · split at h
              · exact main (delNode g1 n) (gpres_delNode g1 n) h
              · exact main g1 (gpres_refl g1) h
            · exact absurd h (by simp)
          · exact main g1 (gpres_refl g1) h
    · rename_i hmem
      have hdone' : ∀ e ∈ g.edges, e.tail ∉ rest → NotIntra g.file e := by
        intro e he htl
        have hnotin : e.tail ∉ n :: rest := by
          intro hcon
          rcases List.mem_cons.mp hcon with hh | hh
          · exact hmem (hh ▸ (hwf.2.2 e he).1)
          · exact htl hh
        exact hdone e he hnotin
      exact ih g g' h hwf hdone'

/-- C3: after the Intra-Edge Reducer completes on a well-formed graph, no
surviving edge connects two nodes whose stored `file` values are equal and
non-empty: whenever both endpoints of a surviving edge carry the same file
string, that string is empty. -/
theorem c3_reducer_invariant {α : Type} [DecidableEq α] (g g' : Graph α)
    (hwf : WF g) (hrun : graph_remove_intra_edges g = .ok g') :
    ∀ e ∈ g'.edges, ∀ f, g'.file e.tail = some f → g'.file e.head = some f → f = "" := by
  have hfe : g'.file = g.file := (reduceNodes_gpres g.nodes g g' hrun).1
  have hdone : ∀ e ∈ g.edges, e.tail ∉ g.nodes → NotIntra g.file e := by
    intro e he htl
    exact absurd (hwf.2.2 e he).1 htl
  have hres := reduceNodes_no_intra g.nodes g g' hrun hwf hdone
  intro e he f hf hf'
  rw [hfe] at hf hf'
  exact hres e he f hf hf'

lemma noIncident_subset {α : Type} {edges' edges : List (Edge α)} {v : α}
    (hsub : edges' ⊆ edges) (h : noIncident edges v) : noIncident edges' v :=
  fun e he => h e (hsub he)

lemma reduceEdges_keeps_isolated {α : Type} [DecidableEq α] (fn : String) :
    ∀ (es : List (Edge α)) (g : Graph α) (b : Bool) (g' : Graph α) (b' : Bool),
      reduceEdges fn es g b = .ok (g', b') →
      ∀ v, v ∈ g.nodes → noIncident g.edges v → (∀ e ∈ es, e.head ≠ v) →
      v ∈ g'.nodes ∧ noIncident g'.edges v := by
  intro es
  induction es with
  | nil =>
    intro g b g' b' h v hv hinc hes
    simp only [reduceEdges] at h
    obtain ⟨rfl, rfl⟩ := Prod.mk.injEq .. ▸ Except.ok.inj h
    exact ⟨hv, hinc⟩
  | cons e0 rest ih =>
    intro g b g' b' h v hv hinc hes
    simp only [reduceEdges] at h
    split at h
    · exact absurd h (by simp)
    · split at h
      · exact ih g b g' b' h v hv hinc (fun e he => hes e (List.mem_cons_of_mem e0 he))
      · split at h
        · refine ih _ _ _ _ h v hv ?_ (fun e he => hes e (List.mem_cons_of_mem e0 he))
          exact noIncident_subset (List.erase_subset e0 g.edges) hinc
        · refine ih _ _ _ _ h v ?_ ?_ (fun e he => hes e (List.mem_cons_of_mem e0 he))
          · have hne : v ≠ e0.head := fun hc => hes e0 (List.mem_cons_self e0 rest) hc.symm
            exact (List.mem_erase_of_ne hne).mpr hv
          · exact noIncident_subset
              ((List.filter_subset' _).trans (List.erase_subset e0 g.edges)) hinc

lemma reduceNodes_keeps_isolated {α : Type} [DecidableEq α] :
    ∀ (tv : List α) (g g' : Graph α), reduceNodes tv g = .ok g' →
      ∀ v, v ∈ g.nodes → noIncident g.edges v → v ∈ g'.nodes := by
  intro tv
  induction tv with
  | nil =>
    intro g g' h v hv hinc
    simp only [reduceNodes] at h
    obtain rfl := Except.ok.inj h
    exact hv
  | cons n rest ih =>
    intro g g' h v hv hinc
    simp only [reduceNodes] at h
    split at h
    · rename_i hmem
      split at h
      · exact absurd h (by simp)
      · rename_i fn hfn
        split at h
        · exact absurd h (by simp)
        · rename_i p g1 isred heq
          have hes : ∀ e ∈ outEdges g n, e.head ≠ v :=
            fun e he => (hinc e (List.filter_subset' _ he)).2
          obtain ⟨hv1, hinc1⟩ :=
            reduceEdges_keeps_isolated fn (outEdges g n) g false g1 isred heq v hv hinc hes
          split at h
          · rename_i hisred
            split at h
            · split at h
              · -- the reduced node n is deleted; show n cannot be the isolated v
                have hnv : n ≠ v := by
                  intro hc
                  subst hc
                  have hempty : outEdges g n = [] := by
                    unfold outEdges
                    exact List.filter_eq_nil_iff.mpr (fun e he => by simp [(hinc e he).1])
                  rw [hempty] at heq
                  simp only [reduceEdges] at heq
                  have hfr : false = isred := (Prod.mk.injEq .. ▸ Except.ok.inj heq).2
                  rw [← hfr] at hisred
                  exact Bool.false_ne_true hisred
                refine ih _ g' h v ?_ ?_
                · exact (List.mem_erase_of_ne (fun hc => hnv hc.symm)).mpr hv1
                · exact noIncident_subset (List.filter_subset' _) hinc1
              · exact ih g1 g' h v hv1 hinc1
            · exact absurd h (by simp)
          · exact ih g1 g' h v hv1 hinc1
    · exact ih g g' h v hv hinc

/-- C8: a node with zero incident edges in the input graph survives the
Intra-Edge Reducer: it is never the head of a deleted edge, and since none
of its own edges can be deleted it is never marked reduced, so the
end-of-node deletion does not apply to it. -/
theorem c8_isolated_node_preserved {α : Type} [DecidableEq α] (g g' : Graph α) (v : α)
    (hv : v ∈ g.nodes) (hdeg : degree g v = 0)
    (hrun : graph_remove_intra_edges g = .ok g') : v ∈ g'.nodes :=
  reduceNodes_keeps_isolated g.nodes g g' hrun v hv ((degree_eq_zero_iff g v).mp hdeg)

lemma reduceEdges_keeps_fileless {α : Type} [DecidableEq α] (fn : String) :
    ∀ (es : List (Edge α)) (g : Graph α) (b : Bool) (g' : Graph α) (b' : Bool),
      reduceEdges fn es g b = .ok (g', b') →
      ∀ v, g.file v = none → v ∈ g.nodes → v ∈ g'.nodes := by
  intro es
  induction es with
  | nil =>
    intro g b g' b' h v hvf hv
    simp only [reduceEdges] at h
    obtain ⟨rfl, rfl⟩ := Prod.mk.injEq .. ▸ Except.ok.inj h
    exact hv
  | cons e0 rest ih =>
    intro g b g' b' h v hvf hv
    simp only [reduceEdges] at h
    split at h
    · exact absurd h (by simp)
    · rename_i fm0 hfm0
      split at h
      · exact ih g b g' b' h v hvf hv
      · split at h
        · exact ih _ _ _ _ h v hvf hv
        · refine ih _ _ _ _ h v hvf ?_
          have hne : v ≠ e0.head := by
            intro hc
            rw [hc, hfm0] at hvf
            exact Option.noConfusion hvf
          exact (List.mem_erase_of_ne hne).mpr hv

lemma reduceNodes_missing_aborts {α : Type} [DecidableEq α] :
    ∀ (tv : List α) (g : Graph α) (v : α), v ∈ tv → v ∈ g.nodes → g.file v = none →
      ∀ g', reduceNodes tv g ≠ .ok g' := by
  intro tv
  induction tv with
  | nil =>
    intro g v hvtv
    exact absurd hvtv (List.not_mem_nil v)
  | cons n rest ih =>
    intro g v hvtv hvg hvf g' h
    simp only [reduceNodes] at h
    split at h
    · rename_i hmem
      split at h
      · exact absurd h (by simp)
      · rename_i fn hfn
        by_cases hvn : v = n
        · rw [hvn, hfn] at hvf
          exact Option.noConfusion hvf
        · have hvrest : v ∈ rest := by
            rcases List.mem_cons.mp hvtv with hc | hc
            · exact absurd hc hvn
            · exact hc
          split at h
          · exact absurd h (by simp)
          · rename_i p g1 isred heq
            have hv1 : v ∈ g1.nodes :=
              reduceEdges_keeps_fileless fn (outEdges g n) g false g1 isred heq v hvf hvg
            have hvf1 : g1.file v = none := by
              rw [(reduceEdges_gpres fn (outEdges g n) g false g1 isred heq).1]
              exact hvf
            split at h
            · split at h
              · split at h
                · refine ih (delNode g1 n) v hvrest ?_ hvf1 g' h
                  exact (List.mem_erase_of_ne hvn).mpr hv1
                · exact ih g1 v hvrest hv1 hvf1 g' h
              · exact absurd h (by simp)
            · exact ih g1 v hvrest hv1 hvf1 g' h
    · rename_i hmem
      have hvrest : v ∈ rest := by
        rcases List.mem_cons.mp hvtv with hc | hc
        · exact absurd (hc ▸ hvg) hmem
        · exact hc
      exact ih g v hvrest hvg hvf g' h

lemma mergeNodes_missing_aborts {α : Type} :
    ∀ (tv : List α) (g : Graph α) (h0 : Graph String) (out0 : List String) (v : α),
      v ∈ tv → g.file v = none → ∀ r, mergeNodes tv g h0 out0 ≠ .ok r := by
  intro tv
  induction tv with
  | nil =>
    intro g h0 out0 v hvtv
    exact absurd hvtv (List.not_mem_nil v)
  | cons n rest ih =>
    intro g h0 out0 v hvtv hvf r h
    simp only [mergeNodes] at h
    split at h
    · exact absurd h (by simp)
    · rename_i fn hfn
      have hvrest : v ∈ rest := by
        rcases List.mem_cons.mp hvtv with hc | hc
        · rw [hc, hfn] at hvf
          exact Option.noConfusion hvf
        · exact hc
      split at h
      · exact ih g h0 out0 v hvrest hvf r h
      · split at h
        · exact ih g h0 out0 v hvrest hvf r h
        · exact ih g _ _ v hvrest hvf r h

/-- C10: a node whose `file` attribute is absent makes both the Intra-Edge
Reducer and the Compartment Merger abort (the `assert` calls at lines 98-99,
105-106 and 170-171): neither stage completes normally, so no output is
produced for the graph.  The reducer can never delete such a node before
reaching it, because it only deletes nodes whose `file` it has already read
successfully. -/
theorem c10_missing_file_aborts {α : Type} [DecidableEq α] (g : Graph α)
    (hmiss : ∃ n ∈ g.nodes, g.file n = none) :
    (graph_remove_intra_edges g).isOk = false ∧ (graph_merge_intra_nodes g).isOk = false := by
  obtain ⟨v, hv, hvf⟩ := hmiss
  constructor
  · cases hres : graph_remove_intra_edges g with
    | error err => rfl
    | ok g' => exact absurd hres (reduceNodes_missing_aborts g.nodes g v hv hv hvf g')
  · cases hres : graph_merge_intra_nodes g with
    | error err => rfl
    | ok r => exact absurd hres (mergeNodes_missing_aborts g.nodes g _ [] v hv hvf r)

lemma reduceEdges_no_action {α : Type} [DecidableEq α] (fn : String) :
    ∀ (es : List (Edge α)) (g : Graph α) (b : Bool),
      (∀ e ∈ es, ∃ fm, g.file e.head = some fm ∧
        (fn.length = 0 ∨ fm.length = 0 ∨ fn ≠ fm)) →
      reduceEdges fn es g b = .ok (g, b) := by
  intro es
  induction es with
  | nil =>
    intro g b _
    rfl
  | cons e0 rest ih =>
    intro g b hyp
    obtain ⟨fm, hfm, hc⟩ := hyp e0 (List.mem_cons_self e0 rest)
    simp only [reduceEdges, hfm]
    rw [if_pos hc]
    exact ih g b (fun e he => hyp e (List.mem_cons_of_mem e0 he))

lemma reduceNodes_no_action {α : Type} [DecidableEq α] :
    ∀ (tv : List α) (g : Graph α),
      (∀ n ∈ g.nodes, ∃ f, g.file n = some f) →
      (∀ e ∈ g.edges, e.head ∈ g.nodes) →
      (∀ e ∈ g.edges, NotIntra g.file e) →
      reduceNodes tv g = .ok g := by
  intro tv
  induction tv with
  | nil =>
    intro g _ _ _
    rfl
  | cons n rest ih =>
    intro g hfiles hheads hni
    by_cases hmem : n ∈ g.nodes
    · obtain ⟨fn, hfn⟩ := hfiles n hmem
      have hee : reduceEdges fn (outEdges g n) g false = .ok (g, false) := by
        apply reduceEdges_no_action
        intro e he
        have heg : e ∈ g.edges := List.filter_subset' _ he
        have htn : e.tail = n := by simpa using (List.mem_filter.mp he).2
        obtain ⟨fm, hfm⟩ := hfiles e.head (hheads e heg)
        refine ⟨fm, hfm, ?_⟩
        by_cases hfneq : fn = fm
        · left
          have hn0 : fn = "" := by
            refine hni e heg fn ?_ ?_
            · rw [htn]
              exact hfn
            · rw [← hfneq] at hfm
              exact hfm
          rw [hn0]
          rfl
        · right
          right
          exact hfneq
      have hstep : reduceNodes (n :: rest) g = reduceNodes rest g := by
        simp [reduceNodes, hmem, hfn, hee]
      rw [hstep]
      exact ih g hfiles hheads hni
    · have hstep : reduceNodes (n :: rest) g = reduceNodes rest g := by
        simp [reduceNodes, hmem]
      rw [hstep]
      exact ih g hfiles hheads hni

lemma reduceNodes_file_present {α : Type} [DecidableEq α] :
    ∀ (tv : List α) (g g' : Graph α), reduceNodes tv g = .ok g' →
      ∀ v ∈ g'.nodes, v ∈ tv → ∃ f, g.file v = some f := by
  intro tv
  induction tv with
  | nil =>
    intro g g' h v hvg' hvtv
    exact absurd hvtv (List.not_mem_nil v)
  | cons n rest ih =>
    intro g g' h v hvg' hvtv
    simp only [reduceNodes] at h
    split at h
    · rename_i hmem
      split at h
      · exact absurd h (by simp)
      · rename_i fn hfn
        split at h
        · exact absurd h (by simp)
        · rename_i p g1 isred heq
          have hfe1 : g1.file = g.file := (reduceEdges_gpres fn _ g false g1 isred heq).1
          by_cases hvn : v = n
          · exact ⟨fn, hvn ▸ hfn⟩
          · have hvrest : v ∈ rest := by
              rcases List.mem_cons.mp hvtv with hc | hc
              · exact absurd hc hvn
              · exact hc
            split at h
            · split at h
              · split at h
                · obtain ⟨f, hf⟩ := ih _ g' h v hvg' hvrest
                  have hf' : g1.file v = some f := hf
                  rw [hfe1] at hf'
                  exact ⟨f, hf'⟩
                · obtain ⟨f, hf⟩ := ih g1 g' h v hvg' hvrest
                  rw [hfe1] at hf
                  exact ⟨f, hf⟩
              · exact absurd h (by simp)
            · obtain ⟨f, hf⟩ := ih g1 g' h v hvg' hvrest
              rw [hfe1] at hf
              exact ⟨f, hf⟩
    · rename_i hmem
      by_cases hvn : v = n
      · have hsub := (reduceNodes_gpres rest g g' h).2.2.2.1
        exact absurd (hvn ▸ hsub hvg') hmem
      · have hvrest : v ∈ rest := by
          rcases List.mem_cons.mp hvtv with hc | hc
          · exact absurd hc hvn
          · exact hc
        exact ih g g' h v hvg' hvrest

/-- C7: the Intra-Edge Reducer is idempotent: a second run on the graph the
first run produced deletes nothing (no edge qualifies for removal, so no
node is marked reduced) and returns the graph unchanged. -/
theorem c7_reducer_idempotent {α : Type} [DecidableEq α] (g g' : Graph α)
    (hwf : WF g) (hrun : graph_remove_intra_edges g = .ok g') :
    graph_remove_intra_edges g' = .ok g' := by
  have hpres := reduceNodes_gpres g.nodes g g' hrun
  have hwf' : WF g' := hpres.2.2.2.2 hwf
  have hfe : g'.file = g.file := hpres.1
  have hfiles : ∀ n ∈ g'.nodes, ∃ f, g'.file n = some f := by
    intro n hn
    obtain ⟨f, hf⟩ :=
      reduceNodes_file_present g.nodes g g' hrun n hn (hpres.2.2.2.1 hn)
    refine ⟨f, ?_⟩
    rw [hfe]
    exact hf
  have hheads : ∀ e ∈ g'.edges, e.head ∈ g'.nodes := fun e he => (hwf'.2.2 e he).2
  have hni : ∀ e ∈ g'.edges, NotIntra g'.file e := by
    intro e he
    rw [hfe]
    refine reduceNodes_no_intra g.nodes g g' hrun hwf ?_ e he
    intro e' he' htl
    exact absurd (hwf.2.2 e' he').1 htl
  exact reduceNodes_no_action g'.nodes g' hfiles hheads hni

lemma mergeNodes_spec {α : Type} :
    ∀ (tv : List α) (g : Graph α) (h0 : Graph String) (out0 : List String)
      (h' : Graph String) (out' : List String),
      mergeNodes tv g h0 out0 = .ok (h', out') →
      (h0.nodes.Nodup → h'.nodes.Nodup) ∧
      (∀ f, f ∈ h'.nodes ↔
        (f ∈ h0.nodes ∨ ∃ n ∈ tv, g.file n = some f ∧ f.length ≠ 0)) ∧
      (∀ f, f ∈ h'.nodes → f ∉ h0.nodes → h'.label f = some f ∧ h'.file f = some f) ∧
      (∀ f, f ∈ h0.nodes → h'.label f = h0.label f ∧ h'.file f = h0.file f) := by
  intro tv
  induction tv with
  | nil =>
    intro g h0 out0 h' out' h
    obtain ⟨rfl, rfl⟩ := Prod.mk.injEq .. ▸ Except.ok.inj h
    refine ⟨id, fun f => by simp, fun f hf hnf => absurd hf hnf, fun f _ => ⟨rfl, rfl⟩⟩
  | cons n rest ih =>
    intro g h0 out0 h' out' h
    simp only [mergeNodes] at h
    split at h
    · exact absurd h (by simp)
    · rename_i fn hfn
      split at h
      · -- node skipped: empty file value
        rename_i hlen
        obtain ⟨hnd, hiff, hnew, hold⟩ := ih g h0 out0 h' out' h
        refine ⟨hnd, fun f => ?_, hnew, hold⟩
        rw [hiff f]
        constructor
        · rintro (hc | ⟨m, hm, hmf, hflen⟩)
          · exact Or.inl hc
          · exact Or.inr ⟨m, List.mem_cons_of_mem n hm, hmf, hflen⟩
        · rintro (hc | ⟨m, hm, hmf, hflen⟩)
          · exact Or.inl hc
          · rcases List.mem_cons.mp hm with rfl | hm'
            · exfalso
              have hffn : f = fn := Option.some.inj (hmf.symm.trans hfn)
              rw [hffn] at hflen
              exact hflen hlen
            · exact Or.inr ⟨m, hm', hmf, hflen⟩
      · -- the file value is non-empty: look the compartment up or create it
        rename_i hlen
        split at h
        · -- compartment already present
          rename_i hmemf
          obtain ⟨hnd, hiff, hnew, hold⟩ := ih g h0 out0 h' out' h
          refine ⟨hnd, fun f => ?_, hnew, hold⟩
          rw [hiff f]
          constructor
          · rintro (hc | ⟨m, hm, hmf, hflen⟩)
            · exact Or.inl hc
            · exact Or.inr ⟨m, List.mem_cons_of_mem n hm, hmf, hflen⟩
          · rintro (hc | ⟨m, hm, hmf, hflen⟩)
            · exact Or.inl hc
            · rcases List.mem_cons.mp hm with rfl | hm'
              · have hffn : f = fn := Option.some.inj (hmf.symm.trans hfn)
                exact Or.inl (hffn ▸ hmemf)
              · exact Or.inr ⟨m, hm', hmf, hflen⟩
        · -- create the compartment for fn
          rename_i hmemf
          obtain ⟨hnd, hiff, hnew, hold⟩ := ih g _ _ h' out' h
          simp only at hnd hiff hnew hold
          refine ⟨?_, fun f => ?_, fun f hf hnf => ?_, fun f hf => ?_⟩
          · intro hnd0
            refine hnd ?_
            simp [List.nodup_append, hnd0, hmemf]
          · rw [hiff f]
            constructor
            · rintro (hc | ⟨m, hm, hmf, hflen⟩)
              · rcases List.mem_append.mp hc with hc' | hc'
                · exact Or.inl hc'
                · have hffn : f = fn := by simpa using hc'
                  refine Or.inr ⟨n, List.mem_cons_self n rest, ?_, ?_⟩
                  · rw [hffn]
                    exact hfn
                  · rw [hffn]
                    exact hlen
              · exact Or.inr ⟨m, List.mem_cons_of_mem n hm, hmf, hflen⟩
            · rintro (hc | ⟨m, hm, hmf, hflen⟩)
              · exact Or.inl (List.mem_append.mpr (Or.inl hc))
              · rcases List.mem_cons.mp hm with rfl | hm'
                · have hffn : f = fn := Option.some.inj (hmf.symm.trans hfn)
                  exact Or.inl (List.mem_append.mpr (Or.inr (by simp [hffn])))
                · exact Or.inr ⟨m, hm', hmf, hflen⟩
          · by_cases hffn : f = fn
            · subst hffn
              have hf1 : f ∈ h0.nodes ++ [f] := List.mem_append.mpr (Or.inr (by simp))
              obtain ⟨hl, hfl⟩ := hold f hf1
              rw [hl, hfl]
              simp
            · have hf1 : f ∉ h0.nodes ++ [fn] := by
                intro hc
                rcases List.mem_append.mp hc with hc' | hc'
                · exact hnf hc'
                · exact hffn (by simpa using hc')
              exact hnew f hf hf1
          · have hffn : f ≠ fn := fun hc => hmemf (hc ▸ hf)
            have hf1 : f ∈ h0.nodes ++ [fn] := List.mem_append.mpr (Or.inl hf)
            obtain ⟨hl, hfl⟩ := hold f hf1
            rw [hl, hfl]
            simp [hffn]

/-- C4: in the merged graph, every distinct non-empty `file` value of the
input graph yields exactly one compartment node, whose `label` and `file`
attributes are that file string; every compartment comes from a non-empty
file value of some input node (so empty-file nodes yield none); and the
merged node count is at most the number of distinct non-empty file
values. -/
theorem c4_merge_completeness {α : Type} (g : Graph α) (h : Graph String)
    (out : List String) (hrun : graph_merge_intra_nodes g = .ok (h, out)) :
    (∀ f, f ≠ "" → (∃ n ∈ g.nodes, g.file n = some f) →
      h.nodes.count f = 1 ∧ h.label f = some f ∧ h.file f = some f) ∧
    (∀ f ∈ h.nodes, f ≠ "" ∧ ∃ n ∈ g.nodes, g.file n = some f) ∧
    h.nodes.length ≤
      ((g.nodes.filterMap g.file).filter (fun s => s.length ≠ 0)).dedup.length := by
  obtain ⟨hnd, hiff, hnew, hold⟩ := mergeNodes_spec g.nodes g _ [] h out hrun
  have hnodup : h.nodes.Nodup := hnd List.nodup_nil
  have hmem_char : ∀ f, f ∈ h.nodes ↔
      ∃ n ∈ g.nodes, g.file n = some f ∧ f.length ≠ 0 := by
    intro f
    rw [hiff f]
    simp
  refine ⟨?_, ?_, ?_⟩
  · rintro f hfne ⟨n, hn, hfn⟩
    have hflen : f.length ≠ 0 := fun hc => hfne (string_length_zero hc)
    have hf : f ∈ h.nodes := (hmem_char f).mpr ⟨n, hn, hfn, hflen⟩
    refine ⟨List.count_eq_one_of_mem hnodup hf, ?_⟩
    exact hnew f hf (by simp)
  · intro f hf
    obtain ⟨n, hn, hfn, hflen⟩ := (hmem_char f).mp hf
    exact ⟨fun hc => hflen (by rw [hc]; rfl), ⟨n, hn, hfn⟩⟩
  · have hsubset : h.nodes ⊆
        ((g.nodes.filterMap g.file).filter (fun s => s.length ≠ 0)).dedup := by
      intro f hf
      obtain ⟨n, hn, hfn, hflen⟩ := (hmem_char f).mp hf
      rw [List.mem_dedup, List.mem_filter]
      exact ⟨List.mem_filterMap.mpr ⟨n, hn, hfn⟩, by simpa using hflen⟩
    exact (hnodup.subperm hsubset).length_le

lemma mapOpt_length {α β : Type} (f : α → Option β) :
    ∀ (l : List α) (r : List β), mapOpt f l = some r → r.length = l.length := by
  intro l
  induction l with
  | nil =>
    intro r h
    obtain rfl := Option.some.inj h
    rfl
  | cons a l ih =>
    intro r h
    simp only [mapOpt] at h
    split at h
    · rename_i b bs hfa hbs
      obtain rfl := Option.some.inj h
      simp [ih bs hbs]
    · exact absurd h (by simp)

lemma mapOpt_mem {α β : Type} (f : α → Option β) :
    ∀ (l : List α) (r : List β), mapOpt f l = some r →
      ∀ a ∈ l, ∃ b ∈ r, f a = some b := by
  intro l
  induction l with
  | nil =>
    intro r h a ha
    exact absurd ha (List.not_mem_nil a)
  | cons a0 l ih =>
    intro r h a ha
    simp only [mapOpt] at h
    split at h
    · rename_i b bs hfa hbs
      obtain rfl := Option.some.inj h
      rcases List.mem_cons.mp ha with rfl | ha'
      · exact ⟨b, List.mem_cons_self b bs, hfa⟩
      · obtain ⟨b', hb', hfb'⟩ := ih bs hbs a ha'
        exact ⟨b', List.mem_cons_of_mem b hb', hfb'⟩
    · exact absurd h (by simp)

lemma mapOpt_mem_rev {α β : Type} (f : α → Option β) :
    ∀ (l : List α) (r : List β), mapOpt f l = some r →
      ∀ b ∈ r, ∃ a ∈ l, f a = some b := by
  intro l
  induction l with
  | nil =>
    intro r h b hb
    obtain rfl := Option.some.inj h
    exact absurd hb (List.not_mem_nil b)
  | cons a0 l ih =>
    intro r h b hb
    simp only [mapOpt] at h
    split at h
    · rename_i b0 bs hfa hbs
      obtain rfl := Option.some.inj h
      rcases List.mem_cons.mp hb with rfl | hb'
      · exact ⟨a0, List.mem_cons_self a0 l, hfa⟩
      · obtain ⟨a, ha, hfa'⟩ := ih bs hbs b hb'
        exact ⟨a, List.mem_cons_of_mem a0 ha, hfa'⟩
    · exact absurd h (by simp)

lemma length_filter_partition {α : Type} (p : α → Bool) :
    ∀ (l : List α), (l.filter p).length + (l.filter (fun a => !p a)).length = l.length := by
  intro l
  induction l with
  | nil => rfl
  | cons a l ih =>
    by_cases h : p a
    all_goals simp [List.filter, h, Nat.succ_add, ih]
    all_goals omega

lemma sum_outEdges_length {α : Type} [DecidableEq α] :
    ∀ (nodes : List α) (edges : List (Edge α)), nodes.Nodup →
      (∀ e ∈ edges, e.tail ∈ nodes) →
      (nodes.map (fun n => (edges.filter (fun e => e.tail = n)).length)).sum
        = edges.length := by
  intro nodes
  induction nodes with
  | nil =>
    intro edges _ hsub
    have hnil : edges = [] :=
      List.eq_nil_iff_forall_not_mem.mpr
        (fun e he => absurd (hsub e he) (List.not_mem_nil e.tail))
    rw [hnil]
    rfl
  | cons n ns ih =>
    intro edges hnd hsub
    simp only [List.map_cons, List.sum_cons]
    have hnotin : n ∉ ns := (List.nodup_cons.mp hnd).1
    have hstep : ∀ m ∈ ns, edges.filter (fun e => e.tail = m) =
        (edges.filter (fun e => !(decide (e.tail = n)))).filter (fun e => e.tail = m) := by
      intro m hm
      rw [List.filter_filter]
      refine (List.filter_congr ?_).symm
      intro e _
      have hmn : m ≠ n := fun hc => hnotin (hc ▸ hm)
      by_cases hem : e.tail = m
      · have hen : e.tail ≠ n := by
          rw [hem]
          exact hmn
        simp [hem, hen, hmn]
      · simp [hem]
    have hmapeq : (ns.map (fun m => (edges.filter (fun e => e.tail = m)).length)).sum =
        (ns.map (fun m =>
          ((edges.filter (fun e => !(decide (e.tail = n)))).filter
            (fun e => e.tail = m)).length)).sum := by
      refine congrArg List.sum (List.map_congr_left ?_)
      intro m hm
      rw [hstep m hm]
    rw [hmapeq]
    rw [ih (edges.filter (fun e => !(decide (e.tail = n)))) (List.nodup_cons.mp hnd).2 ?side]
    case side =>
      intro e he
      have he' := List.mem_filter.mp he
      have hen : e.tail ≠ n := by simpa using he'.2
      rcases List.mem_cons.mp (hsub e he'.1) with hc | hc
      · exact absurd hc hen
      · exact hc
    exact length_filter_partition (fun e => decide (e.tail = n)) edges

lemma d3LinksFlatten_length {α : Type} [DecidableEq α] (g : Graph α) :
    ∀ (ns : List α) (lss : List (List D3Link)),
      mapOpt (fun n => mapOpt (d3LinkEntry g n) (outEdges g n)) ns = some lss →
      lss.flatten.length = (ns.map (fun n => (outEdges g n).length)).sum := by
  intro ns
  induction ns with
  | nil =>
    intro lss h
    obtain rfl := Option.some.inj h
    rfl
  | cons n ns ih =>
    intro lss h
    simp only [mapOpt] at h
    split at h
    · rename_i ls lss' hls hlss'
      obtain rfl := Option.some.inj h
      simp only [List.flatten_cons, List.length_append, List.map_cons, List.sum_cons]
      rw [mapOpt_length _ _ _ hls, ih lss' hlss']
    · exact absurd h (by simp)

/-- C5: for any well-formed graph the emitter accepts, the emitted d3-arc
document has exactly one `nodes` entry per graph node and one `links` entry
per graph edge, and every `source` and `target` string of a link equals the
`id` string of some `nodes` entry. -/
theorem c5_emitter_validity {α : Type} [DecidableEq α] (g : Graph α) (doc : D3Doc)
    (hnd : g.nodes.Nodup)
    (hends : ∀ e ∈ g.edges, e.tail ∈ g.nodes ∧ e.head ∈ g.nodes)
    (hdoc : d3Doc g = some doc) :
    doc.nodes.length = g.nodes.length ∧
    doc.links.length = g.edges.length ∧
    ∀ li ∈ doc.links, li.source ∈ doc.nodes.map D3Node.id ∧
      li.target ∈ doc.nodes.map D3Node.id := by
  unfold d3Doc at hdoc
  split at hdoc
  · rename_i ns lss hns hlss
    obtain rfl := Option.some.inj hdoc
    refine ⟨mapOpt_length _ _ _ hns, ?_, ?_⟩
    · show lss.flatten.length = g.edges.length
      rw [d3LinksFlatten_length g g.nodes lss hlss]
      have hsum := sum_outEdges_length g.nodes g.edges hnd (fun e he => (hends e he).1)
      unfold outEdges
      exact hsum
    · intro li hli
      obtain ⟨ls, hls, hlils⟩ := List.mem_flatten.mp hli
      obtain ⟨n, hn, hmaps⟩ := mapOpt_mem_rev _ _ _ hlss ls hls
      obtain ⟨e, he, hentry⟩ := mapOpt_mem_rev _ _ _ hmaps li hlils
      unfold d3LinkEntry at hentry
      split at hentry
      · rename_i ln lm hln hlm
        obtain rfl := Option.some.inj hentry
        constructor
        · obtain ⟨b, hb, hbentry⟩ := mapOpt_mem _ _ _ hns n hn
          unfold d3NodeEntry at hbentry
          split at hbentry
          · rename_i l2 f2 hl2 hf2
            obtain rfl := Option.some.inj hbentry
            have hll : l2 = ln := Option.some.inj (hl2.symm.trans hln)
            refine List.mem_map.mpr ⟨_, hb, ?_⟩
            show stripId l2 = D3Link.source ⟨stripId ln, stripId lm, e.value.getD ""⟩
            rw [hll]
          · exact absurd hbentry (by simp)
        · have hhead : e.head ∈ g.nodes := (hends e (List.filter_subset' _ he)).2
          obtain ⟨b, hb, hbentry⟩ := mapOpt_mem _ _ _ hns e.head hhead
          unfold d3NodeEntry at hbentry
          split at hbentry
          · rename_i l2 f2 hl2 hf2
            obtain rfl := Option.some.inj hbentry
            have hll : l2 = lm := Option.some.inj (hl2.symm.trans hlm)
            refine List.mem_map.mpr ⟨_, hb, ?_⟩
            show stripId l2 = D3Link.target ⟨stripId ln, stripId lm, e.value.getD ""⟩
            rw [hll]
          · exact absurd hbentry (by simp)
      · exact absurd hentry (by simp)
  · exact absurd hdoc (by simp)

lemma take_if_two (l : List Char) :
    (l.drop 1).take (if l.length > 2 then l.length - 2 else 0) = (l.drop 1).dropLast := by
  rw [List.dropLast_eq_take, List.length_drop]
  by_cases h : l.length > 2
  · have harith : l.length - 2 = l.length - 1 - 1 := by omega
    rw [if_pos h, harith]
  · have harith : l.length - 1 - 1 = 0 := by omega
    rw [if_neg h, harith]

lemma take_if_four (l : List Char) :
    (l.drop 1).take (if l.length > 4 then l.length - 4 else 0)
      = (l.drop 1).dropLast.dropLast.dropLast := by
  have key : ∀ (d : List Char), d.dropLast.dropLast.dropLast = d.take (d.length - 3) := by
    intro d
    simp only [List.dropLast_eq_take, List.length_take, List.take_take]
    congr 1
    omega
  rw [key, List.length_drop]
  by_cases h : l.length > 4
  · have harith : l.length - 4 = l.length - 1 - 3 := by omega
    rw [if_pos h, harith]
  · have harith : l.length - 1 - 3 = 0 := by omega
    rw [if_neg h, harith]

lemma stripId_one_leading_one_trailing (s : String) :
    stripId s = String.mk ((s.data.drop 1).dropLast) :=
  congrArg String.mk (take_if_two s.data)

lemma stripGroup_one_leading_three_trailing (s : String) :
    stripGroup s = String.mk ((s.data.drop 1).dropLast.dropLast.dropLast) :=
  congrArg String.mk (take_if_four s.data)

lemma groupStr_characterization (f : String) :
    groupStr f = if f = "" then "NONE"
      else String.mk ((f.data.drop 1).dropLast.dropLast.dropLast) := by
  by_cases h0 : f = ""
  · rw [if_pos h0]
    subst h0
    rfl
  · rw [if_neg h0]
    unfold groupStr
    have hlen : ¬(f.data.length = 0) :=
      fun hc => h0 (String.ext (List.length_eq_zero.mp hc))
    rw [if_neg hlen, stripGroup_one_leading_three_trailing]
    simp

/-- C6 (amended): the emitter derives `id`, `source` and `target` from the
stored `label` by stripping exactly one leading character and one trailing
character, and derives `group` from the stored `file` by stripping one
leading character and three trailing characters, with an empty `file`
rendered as the sentinel `NONE`. -/
theorem c6_amended_strip_rule {α : Type} (g : Graph α) (n : α) (e : Edge α)
    (l f lm : String) (hl : g.label n = some l) (hf : g.file n = some f)
    (hlm : g.label e.head = some lm) :
    d3NodeEntry g n = some ⟨String.mk ((l.data.drop 1).dropLast),
      if f = "" then "NONE"
      else String.mk ((f.data.drop 1).dropLast.dropLast.dropLast)⟩ ∧
    d3LinkEntry g n e = some ⟨String.mk ((l.data.drop 1).dropLast),
      String.mk ((lm.data.drop 1).dropLast), e.value.getD ""⟩ := by
  constructor
  · unfold d3NodeEntry
    rw [hl, hf]
    show some (D3Node.mk (stripId l) (groupStr f)) = _
    rw [stripId_one_leading_one_trailing l, groupStr_characterization f]
  · unfold d3LinkEntry
    rw [hl, hlm]
    show some (D3Link.mk (stripId l) (stripId lm) (e.value.getD "")) = _
    rw [stripId_one_leading_one_trailing l, stripId_one_leading_one_trailing lm]

/-- File map of the design document's worked example: nodes 0 and 1 live in
file `a`, node 2 in file `b`. -/
def filesSpec : Nat → Option String :=
  fun n => if n = 0 then some "a" else if n = 1 then some "a"
    else if n = 2 then some "b" else none

/-- Label map of the worked example (quoted, as stored by the parser). -/
def labelsSpec : Nat → Option String :=
  fun n => if n ≤ 2 then some "\"L\"" else none

/-- The design document's worked example: edges 0→1 (intra-file) and
1→2 (inter-file). -/
def gSpec : Graph Nat :=
  ⟨[0, 1, 2], [⟨0, 0, 1, none⟩, ⟨1, 1, 2, some "7"⟩], filesSpec, labelsSpec⟩

/-- The worked example after reduction: edge 0→1 and node 0 are gone. -/
def gSpecReduced : Graph Nat :=
  ⟨[1, 2], [⟨1, 1, 2, some "7"⟩], filesSpec, labelsSpec⟩

/-- File map for the anomaly example: nodes 0 and 1 in file `a`, the
edge-less node 2 in file `c`. -/
def filesIso : Nat → Option String :=
  fun n => if n = 0 then some "a" else if n = 1 then some "a"
    else if n = 2 then some "c" else none

/-- A graph whose only edge is intra-file, plus an isolated node 2. -/
def gIso : Graph Nat := ⟨[0, 1, 2], [⟨0, 0, 1, none⟩], filesIso, labelsSpec⟩

/-- `gIso` after reduction: nodes 0 and 1 are deleted with their edge, the
isolated node 2 survives as the anomaly marker. -/
def gIsoReduced : Graph Nat := ⟨[2], [], filesIso, labelsSpec⟩

/-- A single node carrying an intra-file self-loop as its only edge. -/
def gSelfLoop : Graph Nat := ⟨[0], [⟨0, 0, 0, none⟩], fun _ => some "f", fun _ => some "x"⟩

/-- A reduced graph with one inter-file edge of weight "1": node 0 in file
`a`, node 1 in file `b`. -/
def gMergePair : Graph Nat :=
  ⟨[0, 1], [⟨0, 0, 1, some "1"⟩], fun n => if n = 0 then some "a" else some "b",
    fun _ => some "\"L\""⟩

/-- The graph the merger builds from `gMergePair`: two compartments and no
edge. -/
def hMergePair : Graph String :=
  ⟨["a", "b"], [],
    fun s => if s = "b" then some "b" else if s = "a" then some "a" else none,
    fun s => if s = "b" then some "b" else if s = "a" then some "a" else none⟩

/-- The structured d3-arc document of `gMergePair`. -/
def d3DocPair : D3Doc := ⟨[⟨"L", ""⟩, ⟨"L", ""⟩], [⟨"L", "L", "1"⟩]⟩

/-- A one-node graph in file `F`, fed to the compartment pipeline. -/
def gSingleF : Graph Nat := ⟨[0], [], fun _ => some "F", fun _ => some "\"L\""⟩

/-- A graph whose single node has no `file` attribute. -/
def gMissing : Graph Nat := ⟨[0], [], fun _ => none, fun _ => none⟩

/-- A one-node graph with quoted `label` and `file` strings and a self-loop,
for exercising the emitter's quote stripping. -/
def gStrip : Graph Nat :=
  ⟨[0], [⟨0, 0, 0, some "9"⟩], fun _ => some "\"abc.c\"", fun _ => some "\"lbl\""⟩

/-- C1 (evaluation at the failing input): `gMergePair` passes through
reduction unchanged (its only edge is inter-file), yet the merger's output
graph contains the two compartments `a` and `b` and NO edge at all — the
loop over outgoing edges at lines 185-187 has an empty body, so the
inter-file edge of weight "1" is not re-created between the compartments. -/
theorem c1_merger_creates_no_edges :
    graph_remove_intra_edges gMergePair = .ok gMergePair ∧
    (graph_merge_intra_nodes gMergePair).map (fun r => (r.1.nodes, r.1.edges))
      = .ok (["a", "b"], ([] : List (Edge String))) :=
  ⟨rfl, rfl⟩

/-- C2 (evaluation at the failing input): in the default compartment mode,
the standard output for `gSingleF` starts with the stray merger line
`label F file F` (the printf at line 178) before the JSON document, so the
output is not exactly one JSON document. -/
theorem c2_stray_output_before_json :
    process_graph_compartment gSingleF =
      .ok (["label F file F"] ++
        ["\x7b", "  \"nodes\": [", "    \x7b\"id\": \"\", \"group\": \"\"\x7d",
         "  ],", "  \"links\": [", "  ]", "\x7d"]) ∧
    ("label F file F" : String) ≠ "\x7b" :=
  ⟨rfl, by decide⟩

/-- C9 (evaluation at the failing input): on a node whose only edge is an
intra-file self-loop, the reducer deletes the node as the edge's
degree-zero head inside the edge loop, and the end-of-node check at
line 141 then reads the degree of the already-deleted node — a
use-after-free, reported by the embedding as `deadNodeAccess`. -/
theorem c9_selfloop_use_after_delete :
    graph_remove_intra_edges gSelfLoop = .error RunError.deadNodeAccess :=
  rfl

/-- C6 (counterexample to the claim as stated): for the stored file string
`"abc.c"` (with its quotes), the emitted `group` is `abc`: the code strips
one leading and three trailing characters, which differs from stripping one
leading and one trailing character (`abc.c`) and from stripping one leading
and two trailing characters (`abc.`). -/
theorem c6_strip_counterexample :
    d3NodeEntry gStrip 0 = some ⟨"lbl", "abc"⟩ ∧
    ("abc" : String) ≠ String.mk (("\"abc.c\"".data.drop 1).dropLast) ∧
    ("abc" : String) ≠ String.mk (("\"abc.c\"".data.drop 1).dropLast.dropLast) :=
  ⟨rfl, by decide, by decide⟩

theorem c3_reducer_invariant_witness :
    WF gSpec ∧
    (∀ e ∈ gSpecReduced.edges, ∀ f, gSpecReduced.file e.tail = some f →
      gSpecReduced.file e.head = some f → f = "") :=
  ⟨by decide, c3_reducer_invariant gSpec gSpecReduced (by decide) rfl⟩

theorem c4_merge_completeness_witness :
    (∀ f, f ≠ "" → (∃ n ∈ gMergePair.nodes, gMergePair.file n = some f) →
      hMergePair.nodes.count f = 1 ∧ hMergePair.label f = some f ∧
        hMergePair.file f = some f) ∧
    (∀ f ∈ hMergePair.nodes, f ≠ "" ∧ ∃ n ∈ gMergePair.nodes,
      gMergePair.file n = some f) ∧
    hMergePair.nodes.length ≤
      ((gMergePair.nodes.filterMap gMergePair.file).filter
        (fun s => s.length ≠ 0)).dedup.length :=
  c4_merge_completeness gMergePair hMergePair ["label a file a", "label b file b"] rfl

theorem c5_emitter_validity_witness :
    gMergePair.nodes.Nodup ∧
    (∀ e ∈ gMergePair.edges, e.tail ∈ gMergePair.nodes ∧
      e.head ∈ gMergePair.nodes) ∧
    d3DocPair.nodes.length = gMergePair.nodes.length ∧
    d3DocPair.links.length = gMergePair.edges.length ∧
    ∀ li ∈ d3DocPair.links, li.source ∈ d3DocPair.nodes.map D3Node.id ∧
      li.target ∈ d3DocPair.nodes.map D3Node.id :=
  ⟨by decide, by decide,
    c5_emitter_validity gMergePair d3DocPair (by decide) (by decide) rfl⟩

theorem c6_amended_strip_rule_witness :
    d3NodeEntry gStrip 0 = some ⟨String.mk (("\"lbl\"".data.drop 1).dropLast),
      if ("\"abc.c\"" : String) = "" then "NONE"
      else String.mk (("\"abc.c\"".data.drop 1).dropLast.dropLast.dropLast)⟩ ∧
    d3LinkEntry gStrip 0 ⟨0, 0, 0, some "9"⟩ =
      some ⟨String.mk (("\"lbl\"".data.drop 1).dropLast),
        String.mk (("\"lbl\"".data.drop 1).dropLast), (some "9").getD ""⟩ :=
  c6_amended_strip_rule gStrip 0 ⟨0, 0, 0, some "9"⟩ "\"lbl\"" "\"abc.c\"" "\"lbl\""
    rfl rfl rfl

theorem c7_reducer_idempotent_witness :
    WF gSpec ∧ graph_remove_intra_edges gSpec = .ok gSpecReduced ∧
    graph_remove_intra_edges gSpecReduced = .ok gSpecReduced :=
  ⟨by decide, rfl, c7_reducer_idempotent gSpec gSpecReduced (by decide) rfl⟩

theorem c8_isolated_node_preserved_witness :
    2 ∈ gIso.nodes ∧ degree gIso 2 = 0 ∧ 2 ∈ gIsoReduced.nodes :=
  ⟨by decide, by decide,
    c8_isolated_node_preserved gIso gIsoReduced 2 (by decide) (by decide) rfl⟩

theorem c10_missing_file_aborts_witness :
    (graph_remove_intra_edges gMissing).isOk = false ∧
    (graph_merge_intra_nodes gMissing).isOk = false :=
  c10_missing_file_aborts gMissing ⟨0, by decide, rfl⟩
